import Mathlib

/-!
Shallow embedding of the typographic line-layout engine of
topfunky/og-image-generator-go (src/main.go), together with proofs of the
specification claims about it.

The embedding translates the Go code directly:
- `strings.Fields` becomes `fields` (split on whitespace, dropping empties);
- `strings.Join(ws, " ")` becomes `joinSp`;
- Go byte length `len(s)` becomes `strLen` (UTF-8 byte size);
- `float64` quantities (widths, font sizes, y coordinates) are modelled as `ℚ`;
- the text measurer `dc.MeasureString` is an abstract parameter
  `measure : String → ℚ`.
-/

namespace OgImage

/-- Embedding of Go `strings.Fields`, working on the character list: `acc` is
the current in-progress field held in reverse order; whitespace flushes it. -/
def fieldsAux : List Char → List Char → List (List Char)
  | acc, [] => if acc = [] then [] else [acc.reverse]
  | acc, c :: cs =>
    if c.isWhitespace then
      if acc = [] then fieldsAux [] cs else acc.reverse :: fieldsAux [] cs
    else
      fieldsAux (c :: acc) cs

/-- Embedding of `strings.Fields(s)`: the whitespace-separated tokens of `s`,
with no empty tokens. -/
def fields (s : String) : List String :=
  (fieldsAux [] s.data).map (fun l => String.mk l)

/-- Embedding of `strings.Join(ws, " ")`. -/
def joinSp : List String → String
  | [] => ""
  | [w] => w
  | w :: ws => w ++ " " ++ joinSp ws

/-- Embedding of Go `len(s)` (UTF-8 byte length). -/
def strLen (s : String) : Nat := s.utf8ByteSize

/-- A token as produced by `strings.Fields`: non-empty and containing no
whitespace character. -/
def IsWord (w : String) : Prop := w ≠ "" ∧ ∀ c ∈ w.data, ¬ c.isWhitespace

/-- Concatenation, in order, of the words of each line. -/
def wordsOf : List String → List String
  | [] => []
  | l :: ls => fields l ++ wordsOf ls

/-! Typographic constants from src/main.go. -/

def TitleFontSize : ℚ := 72
def URLFontSize : ℚ := 40
def URLMinFontSize : ℚ := 16
def TextTopMargin : ℚ := 135
def TextSideMargin : ℚ := 60
def LineSpacing : ℚ := 3 / 2

/-! The wrap loop of `wrapText` (src/main.go lines 241-274). -/

/-- Loop body of `wrapText`: greedy accumulation of words into `currentLine`,
committing `currentLine` to `lines` whenever the candidate line exceeds
`maxWidth` and the buffer is non-empty; the final non-empty buffer is
committed after the loop. -/
def wrapLoop (measure : String → ℚ) (maxWidth : ℚ) :
    List String → String → List String → List String
  | lines, currentLine, [] =>
    if currentLine ≠ "" then lines ++ [currentLine] else lines
  | lines, currentLine, word :: ws =>
    let testLine := (if currentLine ≠ "" then currentLine ++ " " else currentLine) ++ word
    if maxWidth < measure testLine ∧ currentLine ≠ "" then
      wrapLoop measure maxWidth (lines ++ [currentLine]) word ws
    else
      wrapLoop measure maxWidth lines testLine ws

/-- The raw greedy wrap: the value of `lines` in `wrapText` just before
`preventOrphans` is applied. -/
def rawWrap (measure : String → ℚ) (text : String) (maxWidth : ℚ) : List String :=
  let words := fields text
  if words = [] then [] else wrapLoop measure maxWidth [] "" words

/-! The cascade `balanceLinesUpward` (src/main.go lines 316-354). -/

/-- The character offset at which the second-to-last word of a line with words
`aboveWords` begins when the line is laid out as plain text:
`len(strings.Join(aboveWords[:len-2], " "))`, plus one for the separating
space when `len(aboveWords) > 2`. -/
def secondToLastWordStart (aboveWords : List String) : Nat :=
  strLen (joinSp (aboveWords.take (aboveWords.length - 2))) +
    (if 2 < aboveWords.length then 1 else 0)

/-- Loop of `balanceLinesUpward`: `for idx := modifiedIdx; idx >= 1; idx--`.
A level whose line above has fewer than 2 words is skipped (continue); when
the second-to-last word of the line above starts at or after the current
line's length, the last word of the line above is moved down and the walk
continues upward; otherwise the loop breaks. -/
def balanceLoop : List String → Nat → List String
  | lines, 0 => lines
  | lines, idx + 1 =>
    let currentLine := lines.getD (idx + 1) ""
    let aboveLine := lines.getD idx ""
    let currentLen := strLen currentLine
    let aboveWords := fields aboveLine
    if aboveWords.length < 2 then
      balanceLoop lines idx
    else
      let lineWithoutLastWord := joinSp aboveWords.dropLast
      if currentLen ≤ secondToLastWordStart aboveWords then
        balanceLoop
          ((lines.set idx lineWithoutLastWord).set (idx + 1)
            ((aboveWords.getLastD "") ++ " " ++ currentLine)) idx
      else
        lines

/-- Embedding of `balanceLinesUpward(lines, modifiedIdx)`. -/
def balanceLinesUpward (lines : List String) (modifiedIdx : Nat) : List String :=
  if modifiedIdx < 1 then lines else balanceLoop lines modifiedIdx

/-- Embedding of `preventOrphans(lines)` (src/main.go lines 280-311): if the
last line has exactly one word and the previous line has at least two, move
the last word of the previous line down, then balance upward from the
shortened line. -/
def preventOrphans (lines : List String) : List String :=
  if lines.length < 2 then lines
  else
    let lastLine := lines.getD (lines.length - 1) ""
    let lastLineWords := fields lastLine
    if lastLineWords.length ≠ 1 then lines
    else
      let prevLine := lines.getD (lines.length - 2) ""
      let prevLineWords := fields prevLine
      if prevLineWords.length < 2 then lines
      else
        let wordToMove := prevLineWords.getLastD ""
        let newPrevLine := joinSp prevLineWords.dropLast
        let newLastLine := wordToMove ++ " " ++ lastLine
        balanceLinesUpward
          ((lines.set (lines.length - 2) newPrevLine).set (lines.length - 1) newLastLine)
          (lines.length - 2)

/-- Embedding of `wrapText(dc, text, maxWidth)` (src/main.go lines 241-274):
greedy wrap followed by orphan prevention. -/
def wrapText (measure : String → ℚ) (text : String) (maxWidth : ℚ) : List String :=
  let words := fields text
  if words = [] then [] else preventOrphans (wrapLoop measure maxWidth [] "" words)

/-! Baseline grid (drawTitle, src/main.go lines 376-381) and caption
placement (drawURL, src/main.go lines 386-433). -/

/-- The y coordinate of line `i` in `drawTitle`:
`TextTopMargin + float64(i)*fontHeight*LineSpacing + verticalOffset` with
`verticalOffset = fontHeight`, parametrised over margin, line height and
spacing factor. -/
def gridBaseline (topMargin lineHeight spacingFactor : ℚ) (i : ℕ) : ℚ :=
  topMargin + (i : ℚ) * lineHeight * spacingFactor + lineHeight

/-- The scan loop of `drawURL`:
`for y := firstBaseline; y <= maxY; y += baselineStep { targetY = y }`.
The guard `0 < step` makes the Go loop's implicit termination precondition
explicit; all uses have a positive step. -/
def scanLoop (step maxY : ℚ) (y target : ℚ) : ℚ :=
  if y ≤ maxY ∧ 0 < step then scanLoop step maxY (y + step) y else target
termination_by (⌊(maxY - y) / step⌋ + 1).toNat
decreasing_by
  rename_i h
  obtain ⟨hy, hs⟩ := h
  have hfl : ⌊(maxY - (y + step)) / step⌋ = ⌊(maxY - y) / step⌋ - 1 := by
    have heq : (maxY - (y + step)) / step = (maxY - y) / step - 1 := by
      field_simp
      ring
    rw [heq]
    exact_mod_cast Int.floor_sub_int ((maxY - y) / step) 1
  have hnn : 0 ≤ ⌊(maxY - y) / step⌋ := by
    apply Int.floor_nonneg.mpr
    exact div_nonneg (by linarith) hs.le
  omega

/-- The caption baseline computed by `drawURL` (src/main.go lines 420-430):
first baseline `topMargin + lineHeight`, step `lineHeight * LineSpacing`,
bound `maxY = height - topMargin/2`, scanned upward from the first baseline. -/
def captionTargetY (height topMargin lineHeight : ℚ) : ℚ :=
  let firstBaseline := topMargin + lineHeight
  let baselineStep := lineHeight * LineSpacing
  let maxY := height - topMargin / 2
  scanLoop baselineStep maxY firstBaseline firstBaseline

/-! Font size selection for the caption (drawURL, src/main.go lines 390-401). -/

/-- The font size loop of `drawURL`: `for urlFontSize >= URLMinFontSize`,
breaking when the text fits and otherwise decrementing by 2. `measureAt s`
is the measured width of the caption text with the font loaded at size `s`. -/
def fitLoop (measureAt : ℚ → ℚ) (maxWidth : ℚ) (size : ℚ) : ℚ :=
  if URLMinFontSize ≤ size then
    if measureAt size ≤ maxWidth then size
    else fitLoop measureAt maxWidth (size - 2)
  else size
termination_by (⌊(size - URLMinFontSize) / 2⌋ + 1).toNat
decreasing_by
  have hfl : ⌊(size - 2 - URLMinFontSize) / 2⌋ =
      ⌊(size - URLMinFontSize) / 2⌋ - 1 := by
    have heq : (size - 2 - URLMinFontSize) / 2 = (size - URLMinFontSize) / 2 - 1 := by
      ring_nf
    rw [heq]
    exact_mod_cast Int.floor_sub_int ((size - URLMinFontSize) / 2) 1
  have hnn : 0 ≤ ⌊(size - URLMinFontSize) / 2⌋ := by
    apply Int.floor_nonneg.mpr
    exact div_nonneg (by linarith) (by norm_num)
  omega

/-- The font size at which `drawURL` finally loads the caption font and
draws the caption. -/
def urlFontSizeUsed (measureAt : ℚ → ℚ) (maxWidth : ℚ) : ℚ :=
  fitLoop measureAt maxWidth URLFontSize

/-! Basic lemmas about `fields`, `joinSp` and `wordsOf`. -/

theorem data_append (a b : String) : (a ++ b).data = a.data ++ b.data := rfl

theorem fieldsAux_append_ws (d : Char) (hd : d.isWhitespace = true) (a : List Char) :
    ∀ (acc b : List Char), fieldsAux acc (a ++ d :: b) = fieldsAux acc a ++ fieldsAux [] b := by
  induction a with
  | nil =>
    intro acc b
    by_cases hacc : acc = [] <;> simp [fieldsAux, hd, hacc]
  | cons c a2 ih =>
    intro acc b
    by_cases hc : c.isWhitespace = true
    · by_cases hacc : acc = [] <;> simp [fieldsAux, hc, hacc, ih]
    · simp [fieldsAux, hc, ih]

theorem fieldsAux_nonWs (l : List Char) (hl : ∀ c ∈ l, ¬ c.isWhitespace = true) :
    ∀ acc, fieldsAux acc l = if acc = [] ∧ l = [] then [] else [acc.reverse ++ l] := by
  induction l with
  | nil =>
    intro acc
    by_cases h : acc = [] <;> simp [fieldsAux, h]
  | cons c l2 ih =>
    intro acc
    have hc : ¬ c.isWhitespace = true := hl c (by simp)
    rw [fieldsAux, if_neg hc, ih (fun x hx => hl x (by simp [hx]))]
    simp

theorem fieldsAux_members (l : List Char) :
    ∀ acc, (∀ c ∈ acc, ¬ c.isWhitespace = true) →
      ∀ t ∈ fieldsAux acc l, t ≠ [] ∧ ∀ c ∈ t, ¬ c.isWhitespace = true := by
  induction l with
  | nil =>
    intro acc hacc t ht
    by_cases h : acc = []
    · simp [fieldsAux, h] at ht
    · simp only [fieldsAux, if_neg h, List.mem_singleton] at ht
      subst ht
      refine ⟨by simpa using h, ?_⟩
      intro c hc
      exact hacc c (List.mem_reverse.mp hc)
  | cons c cs ih =>
    intro acc hacc t ht
    by_cases hc : c.isWhitespace = true
    · rw [fieldsAux, if_pos hc] at ht
      by_cases h : acc = []
      · rw [if_pos h] at ht
        exact ih [] (by simp) t ht
      · rw [if_neg h] at ht
        rcases List.mem_cons.mp ht with h1 | h1
        · subst h1
          refine ⟨by simpa using h, ?_⟩
          intro x hx
          exact hacc x (List.mem_reverse.mp hx)
        · exact ih [] (by simp) t h1
    · rw [fieldsAux, if_neg hc] at ht
      refine ih (c :: acc) ?_ t ht
      intro x hx
      rcases List.mem_cons.mp hx with h1 | h1
      · subst h1; exact hc
      · exact hacc x h1

theorem ne_empty_iff_data (s : String) : s ≠ "" ↔ s.data ≠ [] := by
  constructor
  · intro h hd
    exact h (String.ext hd)
  · intro h hs
    subst hs
    exact h rfl

theorem isWord_of_mem_fields (s t : String) (ht : t ∈ fields s) : IsWord t := by
  unfold fields at ht
  rcases List.mem_map.mp ht with ⟨l, hl, rfl⟩
  have h := fieldsAux_members s.data [] (by simp) l hl
  exact ⟨(ne_empty_iff_data _).mpr h.1, h.2⟩

theorem fields_word (w : String) (hw : IsWord w) : fields w = [w] := by
  unfold fields
  rw [fieldsAux_nonWs w.data hw.2 []]
  rw [if_neg (by simp [(ne_empty_iff_data w).mp hw.1])]
  simp

theorem fields_append_space (s t : String) : fields (s ++ " " ++ t) = fields s ++ fields t := by
  unfold fields
  have hdata : (s ++ " " ++ t).data = s.data ++ ' ' :: t.data := by
    show (s.data ++ [' ']) ++ t.data = s.data ++ ' ' :: t.data
    simp
  rw [hdata, fieldsAux_append_ws ' ' (by decide), List.map_append]

theorem fields_word_cons (w s : String) (hw : IsWord w) :
    fields (w ++ " " ++ s) = w :: fields s := by
  rw [fields_append_space, fields_word w hw]
  rfl

theorem fields_joinSp (ws : List String) (h : ∀ w ∈ ws, IsWord w) :
    fields (joinSp ws) = ws := by
  induction ws with
  | nil => rfl
  | cons w ws ih =>
    cases ws with
    | nil => exact fields_word w (h w (by simp))
    | cons v vs =>
      show fields (w ++ " " ++ joinSp (v :: vs)) = w :: v :: vs
      rw [fields_word_cons w _ (h w (by simp))]
      rw [ih (fun x hx => h x (by simp [hx]))]

theorem wordsOf_append (a b : List String) : wordsOf (a ++ b) = wordsOf a ++ wordsOf b := by
  induction a with
  | nil => rfl
  | cons l ls ih => simp [wordsOf, ih]

/-! Lemmas about the cascade loop and `preventOrphans`. -/

theorem getLastD_eq_getLast (l : List String) (h : l ≠ []) : l.getLastD "" = l.getLast h := by
  rw [List.getLastD_eq_getLast?, List.getLast?_eq_getLast _ h]
  rfl

theorem wordsOf_set_pair (A B : String) :
    ∀ (lines : List String) (i : ℕ), i + 1 < lines.length →
      fields A ++ fields B = fields (lines.getD i "") ++ fields (lines.getD (i + 1) "") →
      wordsOf ((lines.set i A).set (i + 1) B) = wordsOf lines := by
  intro lines
  induction lines with
  | nil => intro i h; simp at h
  | cons x rest ih =>
    intro i h hf
    cases i with
    | zero =>
      cases rest with
      | nil => simp at h
      | cons y rest2 =>
        simp only [List.getD_cons_zero, List.getD_cons_succ] at hf
        show wordsOf (A :: B :: rest2) = wordsOf (x :: y :: rest2)
        show fields A ++ wordsOf (B :: rest2) = fields x ++ wordsOf (y :: rest2)
        show fields A ++ (fields B ++ wordsOf rest2) = fields x ++ (fields y ++ wordsOf rest2)
        rw [← List.append_assoc, ← List.append_assoc, hf]
    | succ k =>
      show wordsOf (x :: (rest.set k A).set (k + 1) B) = wordsOf (x :: rest)
      show fields x ++ wordsOf ((rest.set k A).set (k + 1) B) = fields x ++ wordsOf rest
      rw [ih k (by simpa using h) (by simpa using hf)]

theorem balanceLoop_length : ∀ (idx : ℕ) (lines : List String),
    (balanceLoop lines idx).length = lines.length := by
  intro idx
  induction idx with
  | zero => intro lines; rfl
  | succ k ih =>
    intro lines
    simp only [balanceLoop]
    split
    · exact ih lines
    · split
      · rw [ih]
        simp
      · rfl

theorem balanceLoop_getD_gt : ∀ (idx : ℕ) (lines : List String) (j : ℕ), idx < j →
    (balanceLoop lines idx).getD j "" = lines.getD j "" := by
  intro idx
  induction idx with
  | zero => intro lines j _; rfl
  | succ k ih =>
    intro lines j hj
    simp only [balanceLoop]
    split
    · exact ih lines j (by omega)
    · split
      · rw [ih _ j (by omega)]
        rw [List.getD_eq_getElem?_getD, List.getElem?_set_ne (by omega),
          List.getElem?_set_ne (by omega), ← List.getD_eq_getElem?_getD]
      · rfl

theorem balanceLoop_wordsOf : ∀ (idx : ℕ) (lines : List String), idx < lines.length →
    wordsOf (balanceLoop lines idx) = wordsOf lines := by
  intro idx
  induction idx with
  | zero => intro lines _; rfl
  | succ k ih =>
    intro lines hk
    simp only [balanceLoop]
    split
    · exact ih lines (by omega)
    · rename_i hlen2
      split
      · rw [ih _ (by simp; omega)]
        have hlen2' : 2 ≤ (fields (lines.getD k "")).length := by omega
        have haw : fields (lines.getD k "") ≠ [] := by
          intro hcon
          rw [hcon] at hlen2'
          simp at hlen2'
        have hWords : ∀ w ∈ fields (lines.getD k ""), IsWord w :=
          fun w hw => isWord_of_mem_fields _ w hw
        apply wordsOf_set_pair _ _ lines k hk
        rw [fields_joinSp _ (fun w hw => hWords w (List.dropLast_subset _ hw))]
        rw [getLastD_eq_getLast _ haw,
          fields_word_cons _ _ (isWord_of_mem_fields _ _ (List.getLast_mem haw))]
        rw [List.append_cons _ ((fields (lines.getD k "")).getLast haw),
          List.dropLast_append_getLast haw]
      · rfl

/-! Branch characterizations of `preventOrphans`. -/

theorem preventOrphans_of_small (lines : List String) (h : lines.length < 2) :
    preventOrphans lines = lines := by
  unfold preventOrphans
  rw [if_pos h]

theorem preventOrphans_of_last_not_one (lines : List String)
    (h : (fields (lines.getD (lines.length - 1) "")).length ≠ 1) :
    preventOrphans lines = lines := by
  unfold preventOrphans
  split
  · rfl
  · rw [if_pos h]

theorem preventOrphans_of_prev_small (lines : List String)
    (h2 : ¬ lines.length < 2)
    (hlast : (fields (lines.getD (lines.length - 1) "")).length = 1)
    (hprev : (fields (lines.getD (lines.length - 2) "")).length < 2) :
    preventOrphans lines = lines := by
  unfold preventOrphans
  rw [if_neg h2, if_neg (by simpa using hlast), if_pos hprev]

theorem preventOrphans_migrate (lines : List String)
    (h2 : ¬ lines.length < 2)
    (hlast : (fields (lines.getD (lines.length - 1) "")).length = 1)
    (hprev : ¬ (fields (lines.getD (lines.length - 2) "")).length < 2) :
    preventOrphans lines =
      balanceLinesUpward
        ((lines.set (lines.length - 2)
            (joinSp (fields (lines.getD (lines.length - 2) "")).dropLast)).set
          (lines.length - 1)
          (((fields (lines.getD (lines.length - 2) "")).getLastD "") ++ " " ++
            lines.getD (lines.length - 1) ""))
        (lines.length - 2) := by
  unfold preventOrphans
  rw [if_neg h2, if_neg (by simpa using hlast), if_neg hprev]

theorem preventOrphans_length (lines : List String) :
    (preventOrphans lines).length = lines.length := by
  by_cases h2 : lines.length < 2
  · rw [preventOrphans_of_small lines h2]
  by_cases hlast : (fields (lines.getD (lines.length - 1) "")).length = 1
  swap
  · rw [preventOrphans_of_last_not_one lines hlast]
  by_cases hprev : (fields (lines.getD (lines.length - 2) "")).length < 2
  · rw [preventOrphans_of_prev_small lines h2 hlast hprev]
  rw [preventOrphans_migrate lines h2 hlast hprev]
  unfold balanceLinesUpward
  split
  · simp
  · rw [balanceLoop_length]
    simp

theorem preventOrphans_wordsOf (lines : List String) :
    wordsOf (preventOrphans lines) = wordsOf lines := by
  by_cases h2 : lines.length < 2
  · rw [preventOrphans_of_small lines h2]
  by_cases hlast : (fields (lines.getD (lines.length - 1) "")).length = 1
  swap
  · rw [preventOrphans_of_last_not_one lines hlast]
  by_cases hprev : (fields (lines.getD (lines.length - 2) "")).length < 2
  · rw [preventOrphans_of_prev_small lines h2 hlast hprev]
  rw [preventOrphans_migrate lines h2 hlast hprev]
  have hidx : lines.length - 1 = (lines.length - 2) + 1 := by omega
  have hpair :
      wordsOf ((lines.set (lines.length - 2)
          (joinSp (fields (lines.getD (lines.length - 2) "")).dropLast)).set
        (lines.length - 1)
        (((fields (lines.getD (lines.length - 2) "")).getLastD "") ++ " " ++
          lines.getD (lines.length - 1) "")) = wordsOf lines := by
    rw [hidx]
    have hlen2' : 2 ≤ (fields (lines.getD (lines.length - 2) "")).length := by omega
    have haw : fields (lines.getD (lines.length - 2) "") ≠ [] := by
      intro hcon
      rw [hcon] at hlen2'
      simp at hlen2'
    apply wordsOf_set_pair _ _ lines (lines.length - 2) (by omega)
    rw [fields_joinSp _ (fun w hw =>
      isWord_of_mem_fields _ w (List.dropLast_subset _ hw))]
    rw [getLastD_eq_getLast _ haw,
      fields_word_cons _ _ (isWord_of_mem_fields _ _ (List.getLast_mem haw))]
    rw [← hidx]
    rw [List.append_cons _ ((fields (lines.getD (lines.length - 2) "")).getLast haw),
      List.dropLast_append_getLast haw]
  unfold balanceLinesUpward
  split
  · exact hpair
  · rw [balanceLoop_wordsOf _ _ (by simp; omega)]
    exact hpair

theorem preventOrphans_migrated_last (lines : List String)
    (h2 : ¬ lines.length < 2)
    (hlast : (fields (lines.getD (lines.length - 1) "")).length = 1)
    (hprev : ¬ (fields (lines.getD (lines.length - 2) "")).length < 2) :
    (fields ((preventOrphans lines).getD (lines.length - 1) "")).length = 2 := by
  rw [preventOrphans_migrate lines h2 hlast hprev]
  have hlen2' : 2 ≤ (fields (lines.getD (lines.length - 2) "")).length := by omega
  have haw : fields (lines.getD (lines.length - 2) "") ≠ [] := by
    intro hcon
    rw [hcon] at hlen2'
    simp at hlen2'
  have hword : IsWord ((fields (lines.getD (lines.length - 2) "")).getLastD "") := by
    rw [getLastD_eq_getLast _ haw]
    exact isWord_of_mem_fields _ _ (List.getLast_mem haw)
  set A := joinSp (fields (lines.getD (lines.length - 2) "")).dropLast with hA
  set B := ((fields (lines.getD (lines.length - 2) "")).getLastD "") ++ " " ++
    lines.getD (lines.length - 1) "" with hB
  have hgB : ((lines.set (lines.length - 2) A).set (lines.length - 1) B).getD
      (lines.length - 1) "" = B := by
    rw [List.getD_eq_getElem?_getD, List.getElem?_set_self (by simp; omega)]
    rfl
  unfold balanceLinesUpward
  split
  · rw [hgB, hB, fields_word_cons _ _ hword, List.length_cons, hlast]
  · rw [balanceLoop_getD_gt _ _ _ (by omega), hgB, hB,
      fields_word_cons _ _ hword, List.length_cons, hlast]

/-! Lemmas about the wrap loop. -/

theorem wrapLoop_fields_ne (measure : String → ℚ) (maxWidth : ℚ) :
    ∀ (ws lines : List String) (cur : String), (∀ w ∈ ws, IsWord w) →
      (∀ l ∈ lines, fields l ≠ []) → (cur = "" ∨ fields cur ≠ []) →
      ∀ l ∈ wrapLoop measure maxWidth lines cur ws, fields l ≠ [] := by
  intro ws
  induction ws with
  | nil =>
    intro lines cur _ hlines hcur l hl
    simp only [wrapLoop] at hl
    split at hl
    · rename_i hne
      rcases List.mem_append.mp hl with h | h
      · exact hlines l h
      · rcases hcur with hc | hc
        · exact absurd hc hne
        · rw [List.mem_singleton.mp h]
          exact hc
    · exact hlines l hl
  | cons w ws ih =>
    intro lines cur hws hlines hcur l hl
    have hw : IsWord w := hws w (by simp)
    have hws' : ∀ x ∈ ws, IsWord x := fun x hx => hws x (by simp [hx])
    have hwne : fields w ≠ [] := by
      rw [fields_word w hw]
      simp
    simp only [wrapLoop] at hl
    by_cases hc : cur = ""
    · subst hc
      have hred : (if ("" : String) ≠ "" then ("" : String) ++ " " else "") ++ w = w := by
        rw [if_neg (by simp)]
        exact String.ext rfl
      rw [hred, if_neg (by simp)] at hl
      exact ih lines w hws' hlines (Or.inr hwne) l hl
    · have hcne : fields cur ≠ [] := hcur.resolve_left hc
      have hred : (if cur ≠ "" then cur ++ " " else cur) ++ w = cur ++ " " ++ w := by
        rw [if_pos hc]
      rw [hred] at hl
      split at hl
      · refine ih (lines ++ [cur]) w hws' ?_ (Or.inr hwne) l hl
        intro x hx
        rcases List.mem_append.mp hx with h | h
        · exact hlines x h
        · rw [List.mem_singleton.mp h]
          exact hcne
      · refine ih lines (cur ++ " " ++ w) hws' hlines (Or.inr ?_) l hl
        rw [fields_append_space, fields_word w hw]
        simp

theorem wrapLoop_wordsOf (measure : String → ℚ) (maxWidth : ℚ) :
    ∀ (ws lines : List String) (cur : String), (∀ w ∈ ws, IsWord w) →
      wordsOf (wrapLoop measure maxWidth lines cur ws) =
        wordsOf lines ++ fields cur ++ ws := by
  intro ws
  induction ws with
  | nil =>
    intro lines cur _
    simp only [wrapLoop]
    split
    · rw [wordsOf_append]
      simp [wordsOf]
    · rename_i hne
      have hc : cur = "" := by simpa using hne
      subst hc
      show wordsOf lines = wordsOf lines ++ fields "" ++ []
      have hfe : fields "" = [] := rfl
      simp [hfe]
  | cons w ws ih =>
    intro lines cur hws
    have hw : IsWord w := hws w (by simp)
    have hws' : ∀ x ∈ ws, IsWord x := fun x hx => hws x (by simp [hx])
    simp only [wrapLoop]
    by_cases hc : cur = ""
    · subst hc
      have hred : (if ("" : String) ≠ "" then ("" : String) ++ " " else "") ++ w = w := by
        rw [if_neg (by simp)]
        exact String.ext rfl
      rw [hred, if_neg (by simp), ih _ _ hws', fields_word w hw]
      have hfe : fields "" = [] := rfl
      simp [hfe]
    · have hred : (if cur ≠ "" then cur ++ " " else cur) ++ w = cur ++ " " ++ w := by
        rw [if_pos hc]
      rw [hred]
      split
      · rw [ih _ _ hws', wordsOf_append]
        simp [wordsOf, fields_word w hw]
      · rw [ih _ _ hws', fields_append_space, fields_word w hw]
        simp

theorem getD_mem (l : List String) (j : ℕ) (hj : j < l.length) : l.getD j "" ∈ l := by
  rw [List.getD_eq_getElem _ _ hj]
  exact List.getElem_mem hj

theorem wrapText_eq (measure : String → ℚ) (text : String) (maxWidth : ℚ)
    (h : fields text ≠ []) :
    wrapText measure text maxWidth =
      preventOrphans (wrapLoop measure maxWidth [] "" (fields text)) := by
  simp only [wrapText]
  rw [if_neg h]

theorem rawWrap_fields_ne (measure : String → ℚ) (text : String) (maxWidth : ℚ) :
    ∀ l ∈ wrapLoop measure maxWidth [] "" (fields text), fields l ≠ [] := by
  refine wrapLoop_fields_ne measure maxWidth (fields text) [] ""
    (fun w hw => isWord_of_mem_fields text w hw) ?_ (Or.inl rfl)
  intro x hx
  simp at hx

/-! Claim theorems for the wrap and balance pipeline. -/

/-- Claim C7: the balance pass (orphan fix plus cascade) is idempotent:
applying `preventOrphans` twice gives the same result as applying it once,
for every line sequence. -/
theorem balanceIdempotent (lines : List String) :
    preventOrphans (preventOrphans lines) = preventOrphans lines := by
  by_cases h2 : lines.length < 2
  · rw [preventOrphans_of_small lines h2, preventOrphans_of_small lines h2]
  by_cases hlast : (fields (lines.getD (lines.length - 1) "")).length = 1
  swap
  · rw [preventOrphans_of_last_not_one lines hlast,
      preventOrphans_of_last_not_one lines hlast]
  by_cases hprev : (fields (lines.getD (lines.length - 2) "")).length < 2
  · rw [preventOrphans_of_prev_small lines h2 hlast hprev,
      preventOrphans_of_prev_small lines h2 hlast hprev]
  · apply preventOrphans_of_last_not_one
    rw [preventOrphans_length]
    rw [preventOrphans_migrated_last lines h2 hlast hprev]
    omega

/-- Claim C6, word preservation: the concatenation in order of the words of each
line of `wrapText` (wrap followed by balance) equals `fields text`; no word
is duplicated, dropped or reordered. -/
theorem wordPreservation (measure : String → ℚ) (text : String) (maxWidth : ℚ) :
    wordsOf (wrapText measure text maxWidth) = fields text := by
  simp only [wrapText]
  split
  · rename_i h
    rw [h]
    rfl
  · rw [preventOrphans_wordsOf,
      wrapLoop_wordsOf measure maxWidth _ _ _ (fun w hw => isWord_of_mem_fields text w hw)]
    show wordsOf [] ++ fields "" ++ fields text = fields text
    rfl

/-- Claim C1, orphan elimination invariant: whenever `wrapText` (wrap followed by
balance) produces at least 2 lines, the last line has at least 2 words
unless the second-to-last line has exactly 1 word. -/
theorem orphanElimination (measure : String → ℚ) (text : String) (maxWidth : ℚ)
    (h2 : 2 ≤ (wrapText measure text maxWidth).length) :
    2 ≤ (fields ((wrapText measure text maxWidth).getD
        ((wrapText measure text maxWidth).length - 1) "")).length ∨
    (fields ((wrapText measure text maxWidth).getD
        ((wrapText measure text maxWidth).length - 2) "")).length = 1 := by
  by_cases hfe : fields text = []
  · have hnil : wrapText measure text maxWidth = [] := by
      simp only [wrapText]
      rw [if_pos hfe]
    rw [hnil] at h2
    simp at h2
  rw [wrapText_eq measure text maxWidth hfe] at h2 ⊢
  set raw := wrapLoop measure maxWidth [] "" (fields text) with hraw
  have hrawne : ∀ l ∈ raw, fields l ≠ [] := rawWrap_fields_ne measure text maxWidth
  have hlenR : (preventOrphans raw).length = raw.length := preventOrphans_length raw
  have h2raw : 2 ≤ raw.length := by
    rw [hlenR] at h2
    exact h2
  by_cases hlast : (fields (raw.getD (raw.length - 1) "")).length = 1
  · by_cases hprev : (fields (raw.getD (raw.length - 2) "")).length < 2
    · right
      rw [preventOrphans_of_prev_small raw (by omega) hlast hprev]
      have hne : fields (raw.getD (raw.length - 2) "") ≠ [] :=
        hrawne _ (getD_mem raw (raw.length - 2) (by omega))
      have hpos : 0 < (fields (raw.getD (raw.length - 2) "")).length :=
        List.length_pos.mpr hne
      omega
    · left
      rw [hlenR]
      rw [preventOrphans_migrated_last raw (by omega) hlast hprev]
  · left
    rw [preventOrphans_of_last_not_one raw hlast]
    have hne : fields (raw.getD (raw.length - 1) "") ≠ [] :=
      hrawne _ (getD_mem raw (raw.length - 1) (by omega))
    have hpos : 0 < (fields (raw.getD (raw.length - 1) "")).length :=
      List.length_pos.mpr hne
    omega

/-- Witness for C1 at a concrete input: the text "aa bb cc" with a
character-count measurer and max width 5 wraps and balances to
two lines whose last line has 2 words. -/
theorem orphanElimination_witness :
    2 ≤ (wrapText (fun s => (strLen s : ℚ)) "aa bb cc" 5).length ∧
    (2 ≤ (fields ((wrapText (fun s => (strLen s : ℚ)) "aa bb cc" 5).getD
        ((wrapText (fun s => (strLen s : ℚ)) "aa bb cc" 5).length - 1) "")).length ∨
    (fields ((wrapText (fun s => (strLen s : ℚ)) "aa bb cc" 5).getD
        ((wrapText (fun s => (strLen s : ℚ)) "aa bb cc" 5).length - 2) "")).length = 1) :=
  ⟨by decide, orphanElimination (fun s => (strLen s : ℚ)) "aa bb cc" 5 (by decide)⟩

/-! Spec-side reference algorithm for the greedy wrap (claim C5). -/

/-- Modelled from the spec, section 4.1 (WordWrapper): greedy accumulation
with a current line buffer; the candidate is the buffer plus a space plus the
word, or just the word if the buffer is empty; a candidate that exceeds
`maxWidth` with a non-empty buffer commits the buffer and starts a new buffer
holding only the current word, otherwise the candidate becomes the buffer;
the final non-empty buffer is committed. -/
def greedySpecLoop (measure : String → ℚ) (maxWidth : ℚ) :
    String → List String → List String
  | buffer, [] => if buffer = "" then [] else [buffer]
  | buffer, w :: ws =>
    let candidate := if buffer = "" then w else buffer ++ " " ++ w
    if maxWidth < measure candidate ∧ buffer ≠ "" then
      buffer :: greedySpecLoop measure maxWidth w ws
    else
      greedySpecLoop measure maxWidth candidate ws

/-- Modelled from the spec, section 4.1: the full greedy single-pass
reference algorithm; the text is split on whitespace and empty input yields
an empty sequence. -/
def greedyWrapSpec (measure : String → ℚ) (text : String) (maxWidth : ℚ) : List String :=
  greedySpecLoop measure maxWidth "" (fields text)

theorem wrapLoop_eq_greedy (measure : String → ℚ) (maxWidth : ℚ) :
    ∀ (ws lines : List String) (cur : String),
      wrapLoop measure maxWidth lines cur ws =
        lines ++ greedySpecLoop measure maxWidth cur ws := by
  intro ws
  induction ws with
  | nil =>
    intro lines cur
    simp only [wrapLoop, greedySpecLoop]
    by_cases hc : cur = ""
    · rw [if_neg (by simp [hc]), if_pos hc]
      simp
    · rw [if_pos hc, if_neg hc]
  | cons w ws ih =>
    intro lines cur
    simp only [wrapLoop, greedySpecLoop]
    by_cases hc : cur = ""
    · subst hc
      have hred : (if ("" : String) ≠ "" then ("" : String) ++ " " else "") ++ w = w := by
        rw [if_neg (by simp)]
        exact String.ext rfl
      rw [hred, if_pos rfl, if_neg (by simp), if_neg (by simp), ih]
    · have hred : (if cur ≠ "" then cur ++ " " else cur) ++ w = cur ++ " " ++ w := by
        rw [if_pos hc]
      rw [hred, if_neg hc]
      split
      · rw [ih]
        simp
      · exact ih lines (cur ++ " " ++ w)

/-- Claim C5: the raw wrapped lines of the code (the wrap loop of `wrapText`,
before orphan prevention) coincide with the greedy single-pass reference
algorithm described by the spec, for every text, measurer and max width. -/
theorem greedyWrapEquivalence (measure : String → ℚ) (text : String) (maxWidth : ℚ) :
    rawWrap measure text maxWidth = greedyWrapSpec measure text maxWidth := by
  simp only [rawWrap, greedyWrapSpec]
  split
  · rename_i h
    rw [h]
    rfl
  · rw [wrapLoop_eq_greedy]
    simp

/-! Claims C4 and C8: the cascade step. -/

/-- Claim C4: at each cascade step at index `idx ≥ 1` where the line above has at
least 2 words, the code computes the offset at which the second-to-last word
of the line above would begin (`secondToLastWordStart`) and moves the last
word of the line above down onto the current line exactly when that offset
is greater than or equal to the character length of the current line. -/
theorem cascadeMigrationCriterion (lines : List String) (idx : ℕ) (h1 : 1 ≤ idx)
    (h2 : 2 ≤ (fields (lines.getD (idx - 1) "")).length) :
    balanceLoop lines idx =
      if strLen (lines.getD idx "") ≤
          secondToLastWordStart (fields (lines.getD (idx - 1) "")) then
        balanceLoop
          ((lines.set (idx - 1) (joinSp (fields (lines.getD (idx - 1) "")).dropLast)).set idx
            (((fields (lines.getD (idx - 1) "")).getLastD "") ++ " " ++ lines.getD idx ""))
          (idx - 1)
      else lines := by
  obtain ⟨k, rfl⟩ : ∃ k, idx = k + 1 := ⟨idx - 1, by omega⟩
  simp only [Nat.add_sub_cancel] at h2 ⊢
  simp only [balanceLoop]
  rw [if_neg (by omega)]

/-- Witness for C4 at a concrete input: for the lines "aaa bb c" and "dd",
the offset 4 of the second-to-last word "bb" is at least the length 2 of
"dd", so the word "c" migrates down. -/
theorem cascadeMigrationCriterion_witness :
    1 ≤ 1 ∧ 2 ≤ (fields (["aaa bb c", "dd"].getD 0 "")).length ∧
    balanceLoop ["aaa bb c", "dd"] 1 = ["aaa bb", "c dd"] := by
  refine ⟨by decide, by decide, ?_⟩
  rw [cascadeMigrationCriterion ["aaa bb c", "dd"] 1 (by decide) (by decide)]
  decide

/-- Claim C8, cascade control flow: at index `idx ≥ 1`, a level whose line above
has fewer than 2 words is skipped and the walk continues at the next index
upward, whereas a level where the migration condition fails stops the
cascade entirely, returning the lines unchanged. -/
theorem cascadeControlFlow (lines : List String) (idx : ℕ) (h1 : 1 ≤ idx) :
    ((fields (lines.getD (idx - 1) "")).length < 2 →
      balanceLoop lines idx = balanceLoop lines (idx - 1)) ∧
    (2 ≤ (fields (lines.getD (idx - 1) "")).length →
      secondToLastWordStart (fields (lines.getD (idx - 1) "")) < strLen (lines.getD idx "") →
      balanceLoop lines idx = lines) := by
  obtain ⟨k, rfl⟩ : ∃ k, idx = k + 1 := ⟨idx - 1, by omega⟩
  simp only [Nat.add_sub_cancel]
  constructor
  · intro h
    simp only [balanceLoop]
    rw [if_pos h]
  · intro h hlt
    simp only [balanceLoop]
    rw [if_neg (by omega), if_neg (by omega)]

/-- Witness for C8 at concrete inputs: with the single-word line "aaa" above
index 1 the level is skipped and the walk continues at index 0, while with
the two-word line "a b" above a longer current line "cc" the migration
condition fails and the cascade stops with the lines unchanged. -/
theorem cascadeControlFlow_witness :
    ((fields (["aaa", "bb"].getD 0 "")).length < 2 ∧
      balanceLoop ["aaa", "bb"] 1 = balanceLoop ["aaa", "bb"] 0) ∧
    (2 ≤ (fields (["a b", "cc"].getD 0 "")).length ∧
      secondToLastWordStart (fields (["a b", "cc"].getD 0 "")) <
        strLen (["a b", "cc"].getD 1 "") ∧
      balanceLoop ["a b", "cc"] 1 = ["a b", "cc"]) :=
  ⟨⟨by decide, (cascadeControlFlow ["aaa", "bb"] 1 (by decide)).1 (by decide)⟩,
    ⟨by decide, by decide,
      (cascadeControlFlow ["a b", "cc"] 1 (by decide)).2 (by decide) (by decide)⟩⟩

/-! Claims C9, C10, C2 and C3: baseline grid and caption. -/

/-- Claim C9, grid monotonicity: with positive line height and positive spacing
factor the baselines strictly increase, and baseline i equals baseline 0
plus i times lineHeight times spacingFactor. -/
theorem gridMonotone (topMargin lineHeight spacingFactor : ℚ) (i : ℕ)
    (hl : 0 < lineHeight) (hs : 0 < spacingFactor) :
    gridBaseline topMargin lineHeight spacingFactor i <
      gridBaseline topMargin lineHeight spacingFactor (i + 1) ∧
    gridBaseline topMargin lineHeight spacingFactor i =
      gridBaseline topMargin lineHeight spacingFactor 0 +
        (i : ℚ) * lineHeight * spacingFactor := by
  have hpos : 0 < lineHeight * spacingFactor := mul_pos hl hs
  constructor
  · have key : (i : ℚ) * lineHeight * spacingFactor + lineHeight * spacingFactor =
        ((i : ℚ) + 1) * lineHeight * spacingFactor := by ring
    simp only [gridBaseline]
    push_cast
    linarith [key]
  · simp only [gridBaseline]
    push_cast
    ring

/-- Witness for C9 at a concrete input: with topMargin 0, lineHeight 1 and
spacingFactor 1, baseline 0 is below baseline 1. -/
theorem gridMonotone_witness :
    (0 : ℚ) < 1 ∧
    (gridBaseline 0 1 1 0 < gridBaseline 0 1 1 1 ∧
      gridBaseline 0 1 1 0 = gridBaseline 0 1 1 0 + ((0 : ℕ) : ℚ) * 1 * 1) :=
  ⟨by norm_num, gridMonotone 0 1 1 0 (by norm_num) (by norm_num)⟩

/-- Claim C10, caption fallback below the margin: when even the first grid
baseline `topMargin + lineHeight` exceeds the bottom bound
`height - topMargin/2`, the scan selects no baseline and the caption is
still placed, at that first baseline, violating the bottom margin. -/
theorem captionFallback (height topMargin lineHeight : ℚ)
    (h : height - topMargin / 2 < topMargin + lineHeight) :
    captionTargetY height topMargin lineHeight = topMargin + lineHeight := by
  simp only [captionTargetY]
  rw [scanLoop, if_neg (fun hc => absurd hc.1 (by linarith))]

/-- Witness for C10 at a concrete input: a 200 pixel tall canvas with the
code's 135 pixel top margin and a 100 pixel title line height places the
caption at the first baseline 235, below the canvas bottom. -/
theorem captionFallback_witness :
    (200 : ℚ) - 135 / 2 < 135 + 100 ∧ captionTargetY 200 135 100 = 135 + 100 :=
  ⟨by norm_num, captionFallback 200 135 100 (by norm_num)⟩

/-- Claim C2, code bug evidence: at canvas height 460, top margin 135 and title
line height 100 the caption baseline computed by the drawURL scan is 385,
which violates the bottom margin claimed by the spec and by the code's own
comment (space equal to the top margin): 385 is above the bound
460 - 135/2 used by the code but below the documented bound 460 - 135. -/
theorem captionBottomMarginBug :
    captionTargetY 460 135 100 = 385 ∧ ¬ ((385 : ℚ) ≤ 460 - 135) := by
  constructor
  · simp only [captionTargetY, LineSpacing]
    rw [scanLoop, if_pos (by norm_num), scanLoop, if_pos (by norm_num),
      scanLoop, if_neg (by norm_num)]
    norm_num
  · norm_num

/-- Claim C3, code bug evidence: with a caption whose measured width 2 exceeds the
max width 1 at every font size, the size loop of drawURL terminates at
14 = URLMinFontSize - 2, strictly below the declared minimum size 16, and
that is the size the caption is rendered at. -/
theorem urlFontSizeBug :
    urlFontSizeUsed (fun _ => 2) 1 = URLMinFontSize - 2 ∧
    urlFontSizeUsed (fun _ => 2) 1 < URLMinFontSize := by
  have h : urlFontSizeUsed (fun _ => 2) 1 = 14 := by
    simp only [urlFontSizeUsed, URLFontSize]
    iterate 13 rw [fitLoop, if_pos (by norm_num [URLMinFontSize]), if_neg (by norm_num)]
    rw [fitLoop, if_neg (by norm_num [URLMinFontSize])]
    norm_num
  rw [h]
  norm_num [URLMinFontSize]

end OgImage
